import Mathlib

/-!
Verification of the constituency-name reconciliation layer of the tntracker
repository (backend/core/views.py, scripts/build_dim_constituencies.py,
backend/core/management/commands/import_dim_constituencies.py).

The Python functions are shallowly embedded over Lean strings (lists of
characters).  Strings are modelled at the ASCII level: Python uppercasing,
whitespace stripping and the regex substitutions used by the code only act on
ASCII characters for the inputs these pipelines see.  Similarity scores
computed by difflib (floats in Python) are modelled as exact rationals; the
concrete cutoffs used by the repository (0.85 and the unused 0.9 default) are
the rationals 85/100 and 9/10.
-/

set_option maxRecDepth 16000

/-- ASCII whitespace, as matched by the Python str.strip method and the
regex class backslash-s for the inputs in play. -/
def pyIsSpace (c : Char) : Bool :=
  c == ' ' || c == '\t' || c == '\n' || c == '\r' || c == '\x0b' || c == '\x0c'

/-- Characters kept by the normalizers: the regex class A-Z0-9. -/
def isKeyChar (c : Char) : Bool :=
  (65 ≤ c.toNat && c.toNat ≤ 90) || (48 ≤ c.toNat && c.toNat ≤ 57)

/-- ASCII uppercasing of one character, as Python str.upper does on the
ASCII inputs these pipelines see. -/
def pyUpper (c : Char) : Char :=
  if 97 ≤ c.toNat && c.toNat ≤ 122 then Char.ofNat (c.toNat - 32) else c

/-- Drop trailing characters satisfying p. -/
def dropTrailing (p : Char → Bool) (l : List Char) : List Char :=
  (l.reverse.dropWhile p).reverse

/-- Python str.strip: remove leading and trailing whitespace. -/
def pyStrip (l : List Char) : List Char :=
  dropTrailing pyIsSpace (l.dropWhile pyIsSpace)

/-- String-level wrapper for pyStrip. -/
def pyStripS (s : String) : String := String.mk (pyStrip s.data)

/-- Fuel-indexed scan behind squashRuns; the fuel is at least the list
length at every call site, so the zero-fuel branch is never taken. -/
def squashAux (p : Char → Bool) : Nat → List Char → List Char
  | 0, l => l
  | _ + 1, [] => []
  | fuel + 1, c :: rest =>
    if p c then ' ' :: squashAux p fuel (rest.dropWhile p)
    else c :: squashAux p fuel rest

/-- Replace every maximal run of characters satisfying p by a single space:
the effect of re.sub with a one-or-more character-class pattern and a single
space as replacement. -/
def squashRuns (p : Char → Bool) (l : List Char) : List Char :=
  squashAux p l.length l

/-- The space-retaining normalizer of backend/core/views.py
(_normalize_constituency_name, lines 120-122): strip, uppercase, replace each
run of characters outside A-Z0-9 by one space, collapse whitespace runs,
strip again.  It does not treat SC/ST reservation markers specially. -/
def nviewsList (l : List Char) : List Char :=
  pyStrip (squashRuns pyIsSpace
    (squashRuns (fun c => !(isKeyChar c)) ((pyStrip l).map pyUpper)))

/-- _normalize_constituency_name from backend/core/views.py. -/
def _normalize_constituency_name (s : String) : String :=
  String.mk (nviewsList s.data)

/-- Try to match the regex pattern backslash-open-paren, spaces, SC or ST,
spaces, close-paren at the head of the list; on success return the remainder
after the match.  Used by the script normalizer (line 154 of
scripts/build_dim_constituencies.py); the uppercase input makes the
case-sensitive match faithful. -/
def parenMatch (l : List Char) : Option (List Char) :=
  match l with
  | c :: rest =>
    if c = '(' then
      match rest.dropWhile pyIsSpace with
      | s :: x :: r2 =>
        if s = 'S' ∧ (x = 'C' ∨ x = 'T') then
          match r2.dropWhile pyIsSpace with
          | cp :: r3 => if cp = ')' then some r3 else none
          | [] => none
        else none
      | _ => none
    else none
  | [] => none

/-- One fuel-indexed scan implementing re.sub of the parenthesized SC/ST
pattern with the empty replacement: leftmost matches are removed, scanning
resumes after each match.  The fuel is always at least the list length at
every call site, which makes the scan total and faithful. -/
def removeParenAux : Nat → List Char → List Char
  | 0, l => l
  | _ + 1, [] => []
  | fuel + 1, c :: rest =>
    match parenMatch (c :: rest) with
    | some r => removeParenAux fuel r
    | none => c :: removeParenAux fuel rest

/-- Remove every occurrence of the parenthesized SC/ST pattern. -/
def removeParenSCST (l : List Char) : List Char :=
  removeParenAux l.length l

/-- Does the list match SC or ST followed by only whitespace?  The tail of
the anchored pattern whitespace+, SC or ST, whitespace*, end. -/
def scstTail (l : List Char) : Bool :=
  match l with
  | 'S' :: 'C' :: rest => rest.all pyIsSpace
  | 'S' :: 'T' :: rest => rest.all pyIsSpace
  | _ => false

/-- Does the whole list match the anchored pattern one-or-more whitespace,
SC or ST, optional whitespace, end of string? -/
def matchSpacesSCST (l : List Char) : Bool :=
  match l with
  | c :: rest => pyIsSpace c && scstTail (rest.dropWhile pyIsSpace)
  | [] => false

/-- re.sub of the anchored trailing-SC/ST pattern with the empty replacement:
the leftmost position whose suffix matches is cut off. -/
def stripTrailingSCST : List Char → List Char
  | [] => []
  | c :: rest =>
    if matchSpacesSCST (c :: rest) then [] else c :: stripTrailingSCST rest

/-- The space-stripping normalizer shared verbatim by
scripts/build_dim_constituencies.py (lines 147-156) and
backend/core/management/commands/import_dim_constituencies.py (lines 25-29):
uppercase, delete parenthesized SC/ST groups, strip, delete a trailing
whitespace-preceded SC/ST word, then delete every character outside A-Z0-9. -/
def nscriptList (l : List Char) : List Char :=
  (stripTrailingSCST (pyStrip (removeParenSCST (l.map pyUpper)))).filter
    isKeyChar

/-- _normalize from scripts/build_dim_constituencies.py and from
the import_dim_constituencies management command (identical code). -/
def _normalize (s : String) : String :=
  String.mk (nscriptList s.data)

/-- Length of the common prefix of two lists: the length of the matching
run that starts at a given pair of positions. -/
def runLen : List Char → List Char → Nat
  | a :: as, b :: bs => if a = b then runLen as bs + 1 else 0
  | _, _ => 0

/-- difflib.SequenceMatcher.find_longest_match with no junk (the setting of
get_close_matches on these short strings): the longest matching block of the
two sequences, as start position in a, start position in b and size, taking
the block that starts earliest in a and then earliest in b on size ties. -/
def findLongestMatch (a b : List Char) : Nat × Nat × Nat :=
  (List.range a.length).foldl
    (fun best i =>
      (List.range b.length).foldl
        (fun best j =>
          if best.2.2 < runLen (a.drop i) (b.drop j) then
            (i, j, runLen (a.drop i) (b.drop j))
          else best)
        best)
    (0, 0, 0)

/-- Total size of the matching blocks of difflib.SequenceMatcher
.get_matching_blocks: find the longest match, then recurse on the regions to
its left and to its right.  Fuel-indexed; the initial fuel (sum of lengths)
strictly dominates the region size, which shrinks by at least two with every
productive level, so the zero-fuel branch is never taken. -/
def matchTotalFuel : Nat → List Char → List Char → Nat
  | 0, _, _ => 0
  | fuel + 1, a, b =>
    let t := findLongestMatch a b
    if t.2.2 = 0 then 0
    else
      matchTotalFuel fuel (a.take t.1) (b.take t.2.1) + t.2.2 +
        matchTotalFuel fuel (a.drop (t.1 + t.2.2)) (b.drop (t.2.1 + t.2.2))

/-- Total matching-block size between two character lists. -/
def matchTotal (a b : List Char) : Nat :=
  matchTotalFuel (a.length + b.length) a b

/-- difflib.SequenceMatcher.ratio for sequences a and b: twice the total
matching size over the total length, and 1 for two empty sequences.  Python
computes this in floating point; the model is the exact rational, faithful
for the comparisons the repository performs. -/
def ratioQ (a b : String) : ℚ :=
  if a.data.length + b.data.length = 0 then 1
  else Rat.divInt (2 * matchTotal a.data b.data) (a.data.length + b.data.length)

/-- Strict lexicographic comparison of character lists by code point: the
order Python uses to compare strings. -/
def chLt : List Char → List Char → Bool
  | [], [] => false
  | [], _ :: _ => true
  | _ :: _, [] => false
  | a :: as, b :: bs =>
    if a.toNat = b.toNat then chLt as bs else decide (a.toNat < b.toNat)

/-- Python string comparison, strict less-than. -/
def pyStrLt (a b : String) : Bool := chLt a.data b.data

/-- Strict order on scored candidates, as Python compares the pairs
(ratio, candidate): by ratio first, then by string. -/
def pairLt (p q : ℚ × String) : Prop :=
  p.1 < q.1 ∨ (p.1 = q.1 ∧ pyStrLt p.2 q.2 = true)

instance (p q : ℚ × String) : Decidable (pairLt p q) := by
  unfold pairLt; infer_instance

/-- One step of Python max over an iterator of scored pairs: keep the
accumulator unless the new pair is strictly greater. -/
def stepMax (acc : Option (ℚ × String)) (p : ℚ × String) : Option (ℚ × String) :=
  match acc with
  | none => some p
  | some q => if pairLt q p then some p else some q

/-- The scored list built by difflib.get_close_matches: each candidate whose
ratio against the word clears the cutoff, paired with its ratio, in pool
order.  The quick-ratio prefilters of the original are upper bounds of the
ratio and hence do not change the filter. -/
def scoredList (word : String) (poss : List String) (cutoff : ℚ) :
    List (ℚ × String) :=
  poss.filterMap fun x =>
    if cutoff ≤ ratioQ x word then some (ratioQ x word, x) else none

/-- difflib.get_close_matches with n = 1, the only arity the repository
uses: heapq.nlargest 1 is Python max, which returns the greatest
(ratio, candidate) pair, ties on ratio falling to the greater string.
The cutoff bound check of the original (0 to 1) is a caller obligation. -/
def get_close_matches_1 (word : String) (poss : List String) (cutoff : ℚ) :
    List String :=
  match (scoredList word poss cutoff).foldl stepMax none with
  | none => []
  | some p => [p.2]

/-- Python str.endswith on the character-list model. -/
def pyEndsWith (key suffix : String) : Bool :=
  suffix.data.length ≤ key.data.length &&
    key.data.drop (key.data.length - suffix.data.length) == suffix.data

/-- Drop the last n characters, as the Python slice key[:-n] does for
0 < n ≤ len(key). -/
def pyDropRight (s : String) (n : Nat) : String :=
  String.mk (s.data.take (s.data.length - n))

/-- The body of the suffix-toggle loop of _match_constituency_key
(views.py lines 163-171) for one suffix: if the key ends with the suffix,
test the stripped key against the pool, otherwise test the expanded key. -/
def suffixHit (key suffix : String) (candidates : List String) :
    Option String :=
  if pyEndsWith key suffix then
    let trimmed := pyStripS (pyDropRight key suffix.data.length)
    if trimmed ∈ candidates then some trimmed else none
  else
    let expanded := String.mk (key.data ++ suffix.data)
    if expanded ∈ candidates then some expanded else none

/-- _match_constituency_key from backend/core/views.py (lines 160-173):
exact membership, then the SC and ST suffix toggles in order, then
difflib.get_close_matches with n = 1; when everything misses, the input key
itself is returned.  The Python default cutoff is 0.9. -/
def _match_constituency_key (key : String) (candidates : List String)
    (cutoff : ℚ) : String :=
  if key ∈ candidates then key
  else
    match suffixHit key " SC" candidates with
    | some r => r
    | none =>
      match suffixHit key " ST" candidates with
      | some r => r
      | none =>
        match get_close_matches_1 key candidates cutoff with
        | m :: _ => m
        | [] => key

/-- The unused default cutoff of _match_constituency_key. -/
def match_default_cutoff : ℚ := Rat.divInt 9 10

/-- Lookup in the association-list model of a Python dict: the value of the
most recent binding of the key. -/
def dictFind? {α : Type} (d : List (String × α)) (k : String) : Option α :=
  (d.find? fun p => p.1 == k).map fun p => p.2

/-- Python dict assignment d[k] = v in the association-list model:
the new binding shadows any previous one. -/
def dinsert {α : Type} (d : List (String × α)) (k : String) (v : α) :
    List (String × α) :=
  (k, v) :: d

/-- Python dict.setdefault k v: insert only when the key is absent. -/
def dsetdefault {α : Type} (d : List (String × α)) (k : String) (v : α) :
    List (String × α) :=
  if (dictFind? d k).isSome then d else (k, v) :: d

/-- The alias-table shape of the views: an outer dict from district scope to
an inner dict from normalized key to normalized target. -/
abbrev AliasTable := List (String × List (String × String))

/-- The inner alias dict of one scope; empty when the scope is absent. -/
def abdGet (abd : AliasTable) (scope : String) : List (String × String) :=
  (dictFind? abd scope).getD []

/-- Lookup of one (scope, key) alias entry. -/
def aliasAt (abd : AliasTable) (scope k : String) : Option String :=
  dictFind? (abdGet abd scope) k

/-- defaultdict assignment alias_by_district[scope][k] = v: the scope entry
is materialized and the inner binding overwritten. -/
def abdAssign (abd : AliasTable) (scope k v : String) : AliasTable :=
  dinsert abd scope (dinsert (abdGet abd scope) k v)

/-- defaultdict access plus setdefault alias_by_district[scope]
.setdefault(k, v): the scope entry is materialized, the inner binding only
added when absent. -/
def abdSetdefault (abd : AliasTable) (scope k v : String) : AliasTable :=
  dinsert abd scope (dsetdefault (abdGet abd scope) k v)

/-- The two alias-lookup steps of _resolve_constituency_key (views.py lines
184-191): the district-scoped map when the district key is truthy and its
scope exists, then the global (empty-scope) map; in both steps a falsy
(empty-string) mapped value is skipped, exactly as the Python truthiness
test if mapped does. -/
def aliasLookup (abd : AliasTable) (raw_key district_key : String) :
    Option String :=
  let step1 : Option String :=
    if district_key ≠ "" then
      match dictFind? abd district_key with
      | some inner =>
        match dictFind? inner raw_key with
        | some mapped => if mapped ≠ "" then some mapped else none
        | none => none
      | none => none
    else none
  match step1 with
  | some r => some r
  | none =>
    match dictFind? (abdGet abd "") raw_key with
    | some mapped => if mapped ≠ "" then some mapped else none
    | none => none

/-- _resolve_constituency_key from backend/core/views.py (lines 176-194):
alias lookup first (district scope, then global scope), then fuzzy matching
against the district-narrowed pool when the district key is truthy and
indexed, otherwise against the full pool; the single caller-supplied cutoff
is passed to either fuzzy call.  The Python default cutoff is 0.85. -/
def _resolve_constituency_key (raw_key district_key : String)
    (constituency_seen : List String)
    (district_candidates : List (String × List String))
    (alias_by_district : AliasTable) (cutoff : ℚ) : String :=
  match aliasLookup alias_by_district raw_key district_key with
  | some mapped => mapped
  | none =>
    if district_key ≠ "" then
      match dictFind? district_candidates district_key with
      | some pool => _match_constituency_key raw_key pool cutoff
      | none => _match_constituency_key raw_key constituency_seen cutoff
    else _match_constituency_key raw_key constituency_seen cutoff

/-- The cutoff both map_data (views.py line 350) and constituency_detail
(views.py line 653) pass to _resolve_constituency_key. -/
def map_data_cutoff : ℚ := Rat.divInt 85 100

/-- One CSV row of data/fct_candidates_21.csv, restricted to the columns the
index-building loop of map_data reads for the constituency indexes. -/
structure CsvRow where
  constituency2021 : String
  district2021 : String
  const_off : String

/-- The indexes built by the first loop of map_data (views.py lines
289-306), restricted to the parts the resolver consumes: the global pool,
the district-narrowed pools and the alias table.  The sitting-MLA lookup and
the display-district lookup of the same loop feed only the response
payload. -/
structure MapIndexes where
  constituency_seen : List String
  district_candidates : List (String × List String)
  alias_by_district : AliasTable

/-- Add a key to the set model (Python set.add). -/
def addSet (s : List String) (x : String) : List String :=
  if x ∈ s then s else s ++ [x]

/-- district_candidates[district_key].add(constituency_key) on the
defaultdict-of-sets model. -/
def dcAdd (dc : List (String × List String)) (dk ck : String) :
    List (String × List String) :=
  dinsert dc dk (addSet ((dictFind? dc dk).getD []) ck)

/-- The body of the index-building loop of map_data (views.py lines
295-306) for one row: normalize the constituency and district names, record
the constituency in the global pool and its district pool, and derive an
alias entry from the official-name column: a district-scoped assignment and
a global setdefault. -/
def buildStep (st : MapIndexes) (row : CsvRow) : MapIndexes :=
  let constituency_key := _normalize_constituency_name row.constituency2021
  let district_key := _normalize_constituency_name row.district2021
  if constituency_key ≠ "" then
    let seen := addSet st.constituency_seen constituency_key
    let dc :=
      if district_key ≠ "" then
        dcAdd st.district_candidates district_key constituency_key
      else st.district_candidates
    let official_key := _normalize_constituency_name row.const_off
    let abd :=
      if official_key ≠ "" then
        abdSetdefault
          (abdAssign st.alias_by_district district_key official_key
            constituency_key)
          "" official_key constituency_key
      else st.alias_by_district
    ⟨seen, dc, abd⟩
  else st

/-- The auto-derivation pass: fold the loop body over the CSV rows. -/
def buildIndexes (rows : List CsvRow) : MapIndexes :=
  rows.foldl buildStep ⟨[], [], []⟩

/-- The hand-curated global spelling aliases of map_data (views.py lines
316-322), in source order. -/
def explicit_aliases : List (String × String) :=
  [("PALACODU", "PALACODE"),
   ("THALLI", "THALLY"),
   ("SHOZHINGANALLUR", "SHOLINGANALLUR"),
   ("VANDAVASI", "VANDAVASI SC"),
   ("VANDAVASI SC", "VANDAVASI SC")]

/-- The hand-curated district-scoped aliases of map_data (views.py lines
327-331), in source order. -/
def explicit_district_aliases : List (String × List (String × String)) :=
  [("TIRUVANNAMALAI",
    [("VANDAVASI SC", "VANDAVASI SC"), ("VANDAVASI", "VANDAVASI SC")]),
   ("TIRUPATHUR", [("TIRUPPATTUR", "TIRUPATTUR")]),
   ("SIVAGANGA", [("TIRUPPATTUR", "TIRUPPATHUR")])]

/-- The sequence of setdefault operations the hand-curated alias loops of
map_data perform (views.py lines 323-334), as (scope, key, target) triples
in execution order: each global alias is set-defaulted into the global
scope and then into every district scope, then each district-scoped alias
into its scope. -/
def setdefaultOps (dcKeys : List String) : List (String × String × String) :=
  (explicit_aliases.flatMap fun p =>
    ("", p.1, p.2) :: dcKeys.map fun dk => (dk, p.1, p.2)) ++
  explicit_district_aliases.flatMap fun dp =>
    dp.2.map fun p => (dp.1, p.1, p.2)

/-- The full alias table map_data builds (views.py lines 295-338):
auto-derivation from the rows, the hand-curated setdefault loops, and the
final forced global assignment for TIRUPPATTUR (line 338), the only
hand-curated entry written with plain assignment. -/
def buildAliasMapData (rows : List CsvRow) : AliasTable :=
  let st := buildIndexes rows
  let abd :=
    (setdefaultOps (st.district_candidates.map fun p => p.1)).foldl
      (fun a o => abdSetdefault a o.1 o.2.1 o.2.2) st.alias_by_district
  abdAssign abd "" "TIRUPPATTUR" "TIRUPATTUR"

/-- No branch of _match_constituency_key fires: the key is not in the pool,
both suffix toggles miss, and every candidate scores below the cutoff. -/
def NoMatch (key : String) (pool : List String) (cutoff : ℚ) : Prop :=
  key ∉ pool ∧ suffixHit key " SC" pool = none ∧
    suffixHit key " ST" pool = none ∧ ∀ c ∈ pool, ratioQ c key < cutoff

instance (key : String) (pool : List String) (cutoff : ℚ) :
    Decidable (NoMatch key pool cutoff) := by
  unfold NoMatch; infer_instance

/-- The contract of best_match as the specification document words it
(section 4.3), written only for comparison against the implementation:
exact membership, then the suffix toggles, then the highest-scoring
candidate at or above the cutoff with the lexicographically smaller
candidate preferred on ties, and none when no candidate clears the cutoff
or the pool is empty. -/
def best_match_spec (key : String) (pool : List String) (cutoff : ℚ) :
    Option String :=
  if key ∈ pool then some key
  else
    match suffixHit key " SC" pool with
    | some r => some r
    | none =>
      match suffixHit key " ST" pool with
      | some r => some r
      | none =>
        match
          pool.foldl
            (fun acc c =>
              if cutoff ≤ ratioQ c key then
                match acc with
                | none => some (ratioQ c key, c)
                | some q =>
                  if q.1 < ratioQ c key ∨
                      (q.1 = ratioQ c key ∧ pyStrLt c q.2 = true) then
                    some (ratioQ c key, c)
                  else acc
              else acc)
            none with
        | some p => some p.2
        | none => none

/-- The well-formedness invariant the space-retaining normalizer
establishes: every character is in A-Z0-9 or a space, no two spaces are
adjacent, and the first and last characters are in A-Z0-9. -/
def ViewsCanon (l : List Char) : Prop :=
  (∀ c ∈ l, isKeyChar c = true ∨ c = ' ') ∧
    List.Chain' (fun a b => isKeyChar a = true ∨ isKeyChar b = true) l ∧
    (∀ c, l.head? = some c → isKeyChar c = true) ∧
    (∀ c, l.getLast? = some c → isKeyChar c = true)

theorem chLt_toNat_inj {a b : Char} (h : a.toNat = b.toNat) : a = b := by
  apply Char.ext; apply UInt32.ext; exact h

theorem chLt_irrefl : ∀ l : List Char, chLt l l = false := by
  intro l
  induction l with
  | nil => rfl
  | cons a as ih => simp [chLt, ih]

theorem chLt_trans : ∀ {a b c : List Char},
    chLt a b = true → chLt b c = true → chLt a c = true := by
  intro a
  induction a with
  | nil =>
    intro b c hab hbc
    cases b with
    | nil => simp [chLt] at hab
    | cons y bs =>
      cases c with
      | nil => simp [chLt] at hbc
      | cons z cs => rfl
  | cons x as ih =>
    intro b c hab hbc
    cases b with
    | nil => simp [chLt] at hab
    | cons y bs =>
      cases c with
      | nil => simp [chLt] at hbc
      | cons z cs =>
        have hc : ∀ (u v : Char) (us vs : List Char),
            chLt (u :: us) (v :: vs) =
              if u.toNat = v.toNat then chLt us vs
              else decide (u.toNat < v.toNat) := fun _ _ _ _ => rfl
        rw [hc] at hab hbc ⊢
        by_cases hxy : x.toNat = y.toNat <;> by_cases hyz : y.toNat = z.toNat
        · rw [if_pos hxy] at hab
          rw [if_pos hyz] at hbc
          rw [if_pos (hxy.trans hyz)]
          exact ih hab hbc
        · rw [if_pos hxy] at hab
          rw [if_neg hyz] at hbc
          have hbc' : y.toNat < z.toNat := of_decide_eq_true hbc
          have hxz : ¬ x.toNat = z.toNat := by omega
          rw [if_neg hxz]
          exact decide_eq_true (by omega)
        · rw [if_neg hxy] at hab
          rw [if_pos hyz] at hbc
          have hab' : x.toNat < y.toNat := of_decide_eq_true hab
          have hxz : ¬ x.toNat = z.toNat := by omega
          rw [if_neg hxz]
          exact decide_eq_true (by omega)
        · rw [if_neg hxy] at hab
          rw [if_neg hyz] at hbc
          have hab' : x.toNat < y.toNat := of_decide_eq_true hab
          have hbc' : y.toNat < z.toNat := of_decide_eq_true hbc
          have hxz : ¬ x.toNat = z.toNat := by omega
          rw [if_neg hxz]
          exact decide_eq_true (by omega)

theorem chLt_connex : ∀ {a b : List Char},
    a ≠ b → chLt a b = true ∨ chLt b a = true := by
  intro a
  induction a with
  | nil =>
    intro b hne
    cases b with
    | nil => exact absurd rfl hne
    | cons y bs => left; rfl
  | cons x as ih =>
    intro b hne
    cases b with
    | nil => right; rfl
    | cons y bs =>
      by_cases hxy : x.toNat = y.toNat
      · have hx : x = y := chLt_toNat_inj hxy
        subst hx
        have hne' : as ≠ bs := by
          intro h; exact hne (by rw [h])
        rcases ih hne' with h | h
        · left; simp [chLt, h]
        · right; simp [chLt, h]
      · by_cases hlt : x.toNat < y.toNat
        · left; simp [chLt, hxy, hlt]
        · right
          have : y.toNat ≠ x.toNat := fun h => hxy h.symm
          simp [chLt, this]
          omega

theorem chLt_asymm {a b : List Char} (h : chLt a b = true) :
    chLt b a = false := by
  by_contra hc
  have hba : chLt b a = true := by
    cases hval : chLt b a
    · exact absurd hval hc
    · rfl
  have := chLt_trans h hba
  rw [chLt_irrefl] at this
  exact Bool.noConfusion this

theorem pyStrLt_eq_of_not {a b : String} (h1 : pyStrLt a b = false)
    (h2 : pyStrLt b a = false) : a = b := by
  apply String.ext
  by_contra hne
  have hne' : a.data ≠ b.data := hne
  rcases chLt_connex hne' with h | h
  · rw [pyStrLt, h] at h1; exact Bool.noConfusion h1
  · rw [pyStrLt, h] at h2; exact Bool.noConfusion h2

theorem pairLt_irrefl (p : ℚ × String) : ¬ pairLt p p := by
  intro h
  rcases h with h | ⟨_, h⟩
  · exact lt_irrefl _ h
  · rw [pyStrLt, chLt_irrefl] at h; exact Bool.noConfusion h

theorem pairLt_trans {p q r : ℚ × String} (h1 : pairLt p q)
    (h2 : pairLt q r) : pairLt p r := by
  rcases h1 with h1 | ⟨he1, h1⟩ <;> rcases h2 with h2 | ⟨he2, h2⟩
  · exact Or.inl (h1.trans h2)
  · exact Or.inl (he2 ▸ h1)
  · exact Or.inl (he1 ▸ h2)
  · exact Or.inr ⟨he1.trans he2, chLt_trans h1 h2⟩

theorem pairLt_asymm {p q : ℚ × String} (h : pairLt p q) : ¬ pairLt q p := by
  intro h'
  exact pairLt_irrefl p (pairLt_trans h h')

theorem pairLt_connex {p q : ℚ × String} (hne : p ≠ q) :
    pairLt p q ∨ pairLt q p := by
  rcases lt_trichotomy p.1 q.1 with h | h | h
  · exact Or.inl (Or.inl h)
  · by_cases hs : p.2 = q.2
    · exact absurd (Prod.ext h hs) hne
    · rcases chLt_connex (fun hd => hs (String.ext hd)) with hlt | hlt
      · exact Or.inl (Or.inr ⟨h, hlt⟩)
      · exact Or.inr (Or.inr ⟨h.symm, hlt⟩)
  · exact Or.inr (Or.inl h)

theorem foldMax_acc (l : List (ℚ × String)) :
    ∀ m : ℚ × String, ∃ r, l.foldl stepMax (some m) = some r ∧
      (r = m ∨ r ∈ l) ∧ ¬ pairLt r m ∧ ∀ q ∈ l, ¬ pairLt r q := by
  induction l with
  | nil =>
    intro m
    exact ⟨m, rfl, Or.inl rfl, pairLt_irrefl m, fun q hq => absurd hq (by simp)⟩
  | cons p l ih =>
    intro m
    have hstep : stepMax (some m) p = if pairLt m p then some p else some m := rfl
    by_cases hmp : pairLt m p
    · obtain ⟨r, hr, hmem, hbound, hall⟩ := ih p
      refine ⟨r, ?_, ?_, ?_, ?_⟩
      · simpa [List.foldl_cons, hstep, hmp] using hr
      · rcases hmem with h | h
        · exact Or.inr (List.mem_cons.mpr (Or.inl h))
        · exact Or.inr (List.mem_cons.mpr (Or.inr h))
      · intro hrm
        exact hbound (pairLt_trans hrm hmp)
      · intro q hq
        rcases List.mem_cons.mp hq with h | h
        · exact h ▸ hbound
        · exact hall q h
    · obtain ⟨r, hr, hmem, hbound, hall⟩ := ih m
      refine ⟨r, ?_, ?_, ?_, ?_⟩
      · simpa [List.foldl_cons, hstep, hmp] using hr
      · rcases hmem with h | h
        · exact Or.inl h
        · exact Or.inr (List.mem_cons.mpr (Or.inr h))
      · exact hbound
      · intro q hq
        rcases List.mem_cons.mp hq with h | h
        · subst h
          intro hrq
          by_cases hrm : r = m
          · exact hmp (hrm ▸ hrq)
          · rcases pairLt_connex hrm with h1 | h1
            · exact hbound h1
            · exact hmp (pairLt_trans h1 hrq)
        · exact hall q h

theorem foldMax_none_spec {l : List (ℚ × String)} {r : ℚ × String}
    (h : l.foldl stepMax none = some r) :
    r ∈ l ∧ ∀ q ∈ l, ¬ pairLt r q := by
  cases l with
  | nil => exact absurd h (by simp [stepMax])
  | cons p l =>
    have h0 : (p :: l).foldl stepMax none = l.foldl stepMax (some p) := rfl
    obtain ⟨r', hr', hmem, hbound, hall⟩ := foldMax_acc l p
    rw [h0, hr'] at h
    injection h with h
    subst h
    constructor
    · rcases hmem with h | h
      · exact h ▸ List.mem_cons_self p l
      · exact List.mem_cons_of_mem p h
    · intro q hq
      rcases List.mem_cons.mp hq with h | h
      · exact h ▸ hbound
      · exact hall q h

theorem foldMax_none_eq_none {l : List (ℚ × String)}
    (h : l.foldl stepMax none = none) : l = [] := by
  cases l with
  | nil => rfl
  | cons p l =>
    obtain ⟨r', hr', _, _, _⟩ := foldMax_acc l p
    have h0 : (p :: l).foldl stepMax none = l.foldl stepMax (some p) := rfl
    rw [h0, hr'] at h
    exact Option.noConfusion h

theorem foldMax_isSome {l : List (ℚ × String)} (h : l ≠ []) :
    ∃ r, l.foldl stepMax none = some r := by
  cases hval : l.foldl stepMax none with
  | none => exact absurd (foldMax_none_eq_none hval) h
  | some r => exact ⟨r, rfl⟩

theorem foldMax_perm {l l' : List (ℚ × String)} (hp : l.Perm l') :
    l.foldl stepMax none = l'.foldl stepMax none := by
  cases hl : l.foldl stepMax none with
  | none =>
    have : l = [] := foldMax_none_eq_none hl
    subst this
    have : l' = [] := hp.nil_eq.symm
    subst this
    rfl
  | some r =>
    obtain ⟨hmem, hbound⟩ := foldMax_none_spec hl
    have hne' : l' ≠ [] := by
      intro h
      subst h
      exact absurd (hp.symm.nil_eq.symm ▸ hmem) (by simp)
    obtain ⟨r', hr'⟩ := foldMax_isSome hne'
    obtain ⟨hmem', hbound'⟩ := foldMax_none_spec hr'
    rw [hr']
    congr 1
    by_contra hne
    rcases pairLt_connex hne with h | h
    · exact hbound r' (hp.mem_iff.mpr hmem') h
    · exact hbound' r (hp.mem_iff.mp hmem) h

theorem mem_scoredList {word : String} {poss : List String} {cutoff : ℚ}
    {p : ℚ × String} (h : p ∈ scoredList word poss cutoff) :
    p.2 ∈ poss ∧ cutoff ≤ ratioQ p.2 word ∧ p.1 = ratioQ p.2 word := by
  obtain ⟨a, ha, hfa⟩ := List.mem_filterMap.mp h
  by_cases hcut : cutoff ≤ ratioQ a word
  · rw [if_pos hcut] at hfa
    injection hfa with hfa
    subst hfa
    exact ⟨ha, hcut, rfl⟩
  · rw [if_neg hcut] at hfa
    exact Option.noConfusion hfa

theorem scoredList_mem_of {word : String} {poss : List String} {cutoff : ℚ}
    {c : String} (hc : c ∈ poss) (hcut : cutoff ≤ ratioQ c word) :
    (ratioQ c word, c) ∈ scoredList word poss cutoff :=
  List.mem_filterMap.mpr ⟨c, hc, by rw [if_pos hcut]⟩

theorem scoredList_eq_nil {word : String} {poss : List String} {cutoff : ℚ}
    (h : ∀ c ∈ poss, ratioQ c word < cutoff) :
    scoredList word poss cutoff = [] := by
  apply List.filterMap_eq_nil_iff.mpr
  intro c hc
  rw [if_neg (not_le.mpr (h c hc))]

theorem gcm_nil {word : String} {poss : List String} {cutoff : ℚ}
    (h : ∀ c ∈ poss, ratioQ c word < cutoff) :
    get_close_matches_1 word poss cutoff = [] := by
  unfold get_close_matches_1
  rw [scoredList_eq_nil h]
  rfl

theorem gcm_cons_spec {word : String} {poss : List String} {cutoff : ℚ}
    {m : String} {rest : List String}
    (h : get_close_matches_1 word poss cutoff = m :: rest) :
    m ∈ poss ∧ cutoff ≤ ratioQ m word ∧ rest = [] ∧
      ∀ c ∈ poss, cutoff ≤ ratioQ c word →
        ¬ pairLt (ratioQ m word, m) (ratioQ c word, c) := by
  unfold get_close_matches_1 at h
  cases hfold : (scoredList word poss cutoff).foldl stepMax none with
  | none => rw [hfold] at h; exact List.noConfusion h
  | some p =>
    rw [hfold] at h
    injection h with h1 h2
    subst h1
    subst h2
    obtain ⟨hmem, hbound⟩ := foldMax_none_spec hfold
    obtain ⟨hpool, hcut, hratio⟩ := mem_scoredList hmem
    have hp : p = (ratioQ p.2 word, p.2) := Prod.ext hratio rfl
    refine ⟨hpool, hcut, rfl, ?_⟩
    intro c hc hccut
    have := hbound (ratioQ c word, c) (scoredList_mem_of hc hccut)
    rw [← hp]
    exact this

theorem gcm_perm {word : String} {poss poss' : List String} {cutoff : ℚ}
    (hp : poss.Perm poss') :
    get_close_matches_1 word poss cutoff =
      get_close_matches_1 word poss' cutoff := by
  unfold get_close_matches_1
  have hsp : (scoredList word poss cutoff).Perm (scoredList word poss' cutoff) :=
    hp.filterMap _
  rw [foldMax_perm hsp]

theorem suffixHit_mem {key suffix : String} {pool : List String} {r : String}
    (h : suffixHit key suffix pool = some r) : r ∈ pool := by
  unfold suffixHit at h
  by_cases he : pyEndsWith key suffix
  · rw [if_pos he] at h
    by_cases hm : pyStripS (pyDropRight key suffix.data.length) ∈ pool
    · rw [if_pos hm] at h
      injection h with h
      exact h ▸ hm
    · rw [if_neg hm] at h
      exact Option.noConfusion h
  · rw [if_neg he] at h
    by_cases hm : String.mk (key.data ++ suffix.data) ∈ pool
    · rw [if_pos hm] at h
      injection h with h
      exact h ▸ hm
    · rw [if_neg hm] at h
      exact Option.noConfusion h

theorem suffixHit_perm {key suffix : String} {pool pool' : List String}
    (hp : pool.Perm pool') :
    suffixHit key suffix pool = suffixHit key suffix pool' := by
  unfold suffixHit
  by_cases he : pyEndsWith key suffix
  · rw [if_pos he, if_pos he]
    by_cases hm : pyStripS (pyDropRight key suffix.data.length) ∈ pool
    · rw [if_pos hm, if_pos (hp.mem_iff.mp hm)]
    · rw [if_neg hm, if_neg (fun hc => hm (hp.mem_iff.mpr hc))]
  · rw [if_neg he, if_neg he]
    by_cases hm : String.mk (key.data ++ suffix.data) ∈ pool
    · rw [if_pos hm, if_pos (hp.mem_iff.mp hm)]
    · rw [if_neg hm, if_neg (fun hc => hm (hp.mem_iff.mpr hc))]

theorem match_eq_of_mem {key : String} {pool : List String} {cutoff : ℚ}
    (h : key ∈ pool) : _match_constituency_key key pool cutoff = key := by
  unfold _match_constituency_key
  rw [if_pos h]

theorem match_mem_or_self (key : String) (pool : List String) (cutoff : ℚ) :
    _match_constituency_key key pool cutoff ∈ pool ∨
      _match_constituency_key key pool cutoff = key := by
  unfold _match_constituency_key
  by_cases h1 : key ∈ pool
  · rw [if_pos h1]; exact Or.inl h1
  · rw [if_neg h1]
    cases h2 : suffixHit key " SC" pool with
    | some r => exact Or.inl (suffixHit_mem h2)
    | none =>
      cases h3 : suffixHit key " ST" pool with
      | some r => exact Or.inl (suffixHit_mem h3)
      | none =>
        cases h4 : get_close_matches_1 key pool cutoff with
        | nil => exact Or.inr rfl
        | cons m rest => exact Or.inl (gcm_cons_spec h4).1

theorem match_of_nomatch {key : String} {pool : List String} {cutoff : ℚ}
    (h : NoMatch key pool cutoff) :
    _match_constituency_key key pool cutoff = key := by
  obtain ⟨h1, h2, h3, h4⟩ := h
  unfold _match_constituency_key
  rw [if_neg h1, h2, h3, gcm_nil h4]

theorem match_perm {key : String} {pool pool' : List String} {cutoff : ℚ}
    (hp : pool.Perm pool') :
    _match_constituency_key key pool cutoff =
      _match_constituency_key key pool' cutoff := by
  unfold _match_constituency_key
  rw [suffixHit_perm hp, suffixHit_perm hp, gcm_perm hp]
  by_cases h1 : key ∈ pool
  · rw [if_pos h1, if_pos (hp.mem_iff.mp h1)]
  · rw [if_neg h1, if_neg (fun hc => h1 (hp.mem_iff.mpr hc))]

theorem match_fuzzy_spec {key : String} {pool : List String} {cutoff : ℚ}
    (h1 : key ∉ pool) (h2 : suffixHit key " SC" pool = none)
    (h3 : suffixHit key " ST" pool = none) {c : String} (hc : c ∈ pool)
    (hcut : cutoff ≤ ratioQ c key) :
    _match_constituency_key key pool cutoff ∈ pool ∧
      cutoff ≤ ratioQ (_match_constituency_key key pool cutoff) key ∧
      ∀ d ∈ pool, cutoff ≤ ratioQ d key →
        ¬ pairLt (ratioQ (_match_constituency_key key pool cutoff) key,
            _match_constituency_key key pool cutoff)
          (ratioQ d key, d) := by
  have hne : get_close_matches_1 key pool cutoff ≠ [] := by
    intro hnil
    unfold get_close_matches_1 at hnil
    cases hfold : (scoredList key pool cutoff).foldl stepMax none with
    | none =>
      have : scoredList key pool cutoff = [] := foldMax_none_eq_none hfold
      have hmem := scoredList_mem_of hc hcut
      rw [this] at hmem
      exact absurd hmem (by simp)
    | some p => rw [hfold] at hnil; exact List.noConfusion hnil
  cases h4 : get_close_matches_1 key pool cutoff with
  | nil => exact absurd h4 hne
  | cons m rest =>
    obtain ⟨hm, hmcut, -, hbest⟩ := gcm_cons_spec h4
    have hval : _match_constituency_key key pool cutoff = m := by
      unfold _match_constituency_key
      rw [if_neg h1, h2, h3, h4]
    rw [hval]
    exact ⟨hm, hmcut, hbest⟩

theorem resolve_alias_some {abd : AliasTable} {raw dk t : String}
    (h : aliasLookup abd raw dk = some t) (seen : List String)
    (dc : List (String × List String)) (cutoff : ℚ) :
    _resolve_constituency_key raw dk seen dc abd cutoff = t := by
  unfold _resolve_constituency_key
  rw [h]

theorem resolve_alias_none_district {abd : AliasTable} {raw dk : String}
    {dc : List (String × List String)} {pool : List String}
    (h : aliasLookup abd raw dk = none) (hdk : dk ≠ "")
    (hdc : dictFind? dc dk = some pool) (seen : List String) (cutoff : ℚ) :
    _resolve_constituency_key raw dk seen dc abd cutoff =
      _match_constituency_key raw pool cutoff := by
  unfold _resolve_constituency_key
  rw [h, if_pos hdk, hdc]

theorem resolve_alias_none_full {abd : AliasTable} {raw dk : String}
    {dc : List (String × List String)}
    (h : aliasLookup abd raw dk = none)
    (hfull : dk = "" ∨ dictFind? dc dk = none) (seen : List String)
    (cutoff : ℚ) :
    _resolve_constituency_key raw dk seen dc abd cutoff =
      _match_constituency_key raw seen cutoff := by
  unfold _resolve_constituency_key
  rw [h]
  by_cases hdk : dk = ""
  · rw [if_neg (by simpa using hdk)]
  · rcases hfull with hfull | hfull
    · exact absurd hfull hdk
    · rw [if_pos hdk, hfull]

theorem dictFind?_cons {α : Type} (a : String) (v : α) (d : List (String × α))
    (k : String) :
    dictFind? ((a, v) :: d) k = if a = k then some v else dictFind? d k := by
  unfold dictFind?
  by_cases h : a = k
  · subst h
    simp [List.find?]
  · have hb : (a == k) = false := beq_eq_false_iff_ne.mpr h
    simp [List.find?, hb, h]

theorem abdGet_cons (scope scope' : String) (inner : List (String × String))
    (abd : AliasTable) :
    abdGet ((scope, inner) :: abd) scope' =
      if scope = scope' then inner else abdGet abd scope' := by
  unfold abdGet
  rw [dictFind?_cons]
  by_cases h : scope = scope'
  · rw [if_pos h, if_pos h]
    rfl
  · rw [if_neg h, if_neg h]

theorem dictFind?_dsetdefault_preserve {α : Type} {d : List (String × α)}
    {k k' : String} {v w : α} (h : dictFind? d k' = some w) :
    dictFind? (dsetdefault d k v) k' = some w := by
  unfold dsetdefault
  by_cases hk : (dictFind? d k).isSome
  · rw [if_pos hk]
    exact h
  · rw [if_neg hk]
    rw [dictFind?_cons]
    by_cases hkk : k = k'
    · subst hkk
      rw [h] at hk
      exact absurd rfl hk
    · rw [if_neg hkk]
      exact h

theorem aliasAt_abdSetdefault_preserve {abd : AliasTable}
    {scope k v scope' k' w : String} (h : aliasAt abd scope' k' = some w) :
    aliasAt (abdSetdefault abd scope k v) scope' k' = some w := by
  unfold abdSetdefault dinsert
  unfold aliasAt at h ⊢
  rw [abdGet_cons]
  by_cases hs : scope = scope'
  · rw [if_pos hs]
    subst hs
    exact dictFind?_dsetdefault_preserve h
  · rw [if_neg hs]
    exact h

theorem aliasAt_fold_setdefault_preserve
    (ops : List (String × String × String)) :
    ∀ (abd : AliasTable) {scope' k' w : String},
      aliasAt abd scope' k' = some w →
      aliasAt
        (ops.foldl (fun a o => abdSetdefault a o.1 o.2.1 o.2.2) abd)
        scope' k' = some w := by
  induction ops with
  | nil => intro abd scope' k' w h; exact h
  | cons o ops ih =>
    intro abd scope' k' w h
    exact ih _ (aliasAt_abdSetdefault_preserve h)

theorem aliasAt_abdAssign_preserve {abd : AliasTable}
    {scope k v scope' k' : String} (hne : ¬ (scope = scope' ∧ k = k')) :
    aliasAt (abdAssign abd scope k v) scope' k' = aliasAt abd scope' k' := by
  unfold abdAssign aliasAt dinsert
  rw [abdGet_cons]
  by_cases hs : scope = scope'
  · rw [if_pos hs]
    subst hs
    rw [dictFind?_cons]
    by_cases hk : k = k'
    · exact absurd ⟨rfl, hk⟩ hne
    · rw [if_neg hk]
  · rw [if_neg hs]

theorem aliasAt_abdAssign_self (abd : AliasTable) (scope k v : String) :
    aliasAt (abdAssign abd scope k v) scope k = some v := by
  unfold abdAssign aliasAt dinsert
  rw [abdGet_cons, if_pos rfl, dictFind?_cons, if_pos rfl]

theorem space_not_key {c : Char} (h : pyIsSpace c = true) :
    isKeyChar c = false := by
  unfold pyIsSpace at h
  simp only [Bool.or_eq_true, beq_iff_eq] at h
  rcases h with ((((h | h) | h) | h) | h) | h <;> subst h <;> decide

theorem key_not_space {c : Char} (h : isKeyChar c = true) :
    pyIsSpace c = false := by
  cases hs : pyIsSpace c
  · rfl
  · rw [space_not_key hs] at h
    exact Bool.noConfusion h

theorem pyUpper_fixed {c : Char} (h : isKeyChar c = true ∨ c = ' ') :
    pyUpper c = c := by
  rcases h with h | h
  · unfold isKeyChar at h
    unfold pyUpper
    simp only [Bool.or_eq_true, Bool.and_eq_true, decide_eq_true_eq] at h
    have hcond : ¬ (97 ≤ c.toNat && c.toNat ≤ 122) = true := by
      simp only [Bool.and_eq_true, decide_eq_true_eq, not_and]
      omega
    rw [if_neg hcond]
  · subst h
    decide

theorem map_id_of_fixed {f : Char → Char} :
    ∀ {l : List Char}, (∀ c ∈ l, f c = c) → l.map f = l := by
  intro l
  induction l with
  | nil => intro _; rfl
  | cons a as ih =>
    intro h
    rw [List.map_cons, h a (List.mem_cons_self a as),
      ih fun c hc => h c (List.mem_cons_of_mem a hc)]

theorem dropWhile_length_le (p : Char → Bool) (l : List Char) :
    (l.dropWhile p).length ≤ l.length :=
  (List.dropWhile_suffix p).sublist.length_le

theorem dropWhile_head_false {p : Char → Bool} :
    ∀ {l : List Char} {c : Char}, (l.dropWhile p).head? = some c →
      p c = false := by
  intro l
  induction l with
  | nil => intro c h; exact Option.noConfusion h
  | cons a as ih =>
    intro c h
    rw [List.dropWhile_cons] at h
    by_cases hp : p a
    · rw [if_pos hp] at h
      exact ih h
    · rw [if_neg hp] at h
      injection h with h
      subst h
      cases hval : p a
      · rfl
      · exact absurd hval hp

theorem dropWhile_eq_self_of_head {p : Char → Bool} {l : List Char}
    (h : ∀ c, l.head? = some c → p c = false) : l.dropWhile p = l := by
  cases l with
  | nil => rfl
  | cons a as =>
    have ha : p a = false := h a rfl
    simp [List.dropWhile_cons, ha]

theorem head?_eq_of_front {s t : List Char} {c : Char} (hp : s <+: t)
    (h : s.head? = some c) : t.head? = some c := by
  obtain ⟨r, hr⟩ := hp
  subst hr
  cases s with
  | nil => exact Option.noConfusion h
  | cons a as => exact h

theorem pyStrip_prefix_core (m : List Char) :
    (m.reverse.dropWhile pyIsSpace).reverse <+: m := by
  have hs : m.reverse.dropWhile pyIsSpace <:+ m.reverse :=
    @List.dropWhile_suffix _ m.reverse pyIsSpace
  have h3 : (m.reverse.dropWhile pyIsSpace).reverse <+: m.reverse.reverse :=
    List.reverse_prefix.mpr hs
  rwa [List.reverse_reverse] at h3

theorem pyStrip_within (l : List Char) : pyStrip l <:+: l := by
  unfold pyStrip dropTrailing
  exact (pyStrip_prefix_core (l.dropWhile pyIsSpace)).isInfix.trans
    (List.dropWhile_suffix pyIsSpace).isInfix

theorem mem_pyStrip {l : List Char} {c : Char} (h : c ∈ pyStrip l) : c ∈ l :=
  (pyStrip_within l).sublist.mem h

theorem pyStrip_head_not_space {l : List Char} {c : Char}
    (h : (pyStrip l).head? = some c) : pyIsSpace c = false := by
  unfold pyStrip dropTrailing at h
  exact dropWhile_head_false
    (head?_eq_of_front (pyStrip_prefix_core (l.dropWhile pyIsSpace)) h)

theorem pyStrip_last_not_space {l : List Char} {c : Char}
    (h : (pyStrip l).getLast? = some c) : pyIsSpace c = false := by
  unfold pyStrip dropTrailing at h
  rw [List.getLast?_reverse] at h
  exact dropWhile_head_false h

theorem pyStrip_id {l : List Char}
    (h1 : ∀ c, l.head? = some c → pyIsSpace c = false)
    (h2 : ∀ c, l.getLast? = some c → pyIsSpace c = false) :
    pyStrip l = l := by
  unfold pyStrip dropTrailing
  rw [dropWhile_eq_self_of_head h1]
  rw [dropWhile_eq_self_of_head ?_, List.reverse_reverse]
  intro c hc
  rw [List.head?_reverse] at hc
  exact h2 c hc

theorem mem_of_dropWhile {p : Char → Bool} {l : List Char} {c : Char}
    (h : c ∈ l.dropWhile p) : c ∈ l :=
  (List.dropWhile_suffix p).sublist.mem h

theorem squashAux_mem {p : Char → Bool} :
    ∀ (fuel : Nat) (l : List Char), l.length ≤ fuel →
      ∀ c ∈ squashAux p fuel l, (c ∈ l ∧ p c = false) ∨ c = ' ' := by
  intro fuel
  induction fuel with
  | zero =>
    intro l hl c hc
    have : l = [] := List.length_eq_zero.mp (Nat.le_zero.mp hl)
    subst this
    exact absurd hc (by simp [squashAux])
  | succ fuel ih =>
    intro l hl c hc
    cases l with
    | nil => exact absurd hc (by simp [squashAux])
    | cons a rest =>
      rw [List.length_cons, Nat.succ_le_succ_iff] at hl
      by_cases hp : p a
      · rw [show squashAux p (fuel + 1) (a :: rest) =
            ' ' :: squashAux p fuel (rest.dropWhile p) by
          simp [squashAux, hp]] at hc
        rcases List.mem_cons.mp hc with h | h
        · exact Or.inr h
        · have hlen : (rest.dropWhile p).length ≤ fuel :=
            le_trans (dropWhile_length_le p rest) hl
          rcases ih (rest.dropWhile p) hlen c h with ⟨hmem, hpc⟩ | h
          · exact Or.inl ⟨List.mem_cons_of_mem a (mem_of_dropWhile hmem), hpc⟩
          · exact Or.inr h
      · rw [show squashAux p (fuel + 1) (a :: rest) =
            a :: squashAux p fuel rest by simp [squashAux, hp]] at hc
        rcases List.mem_cons.mp hc with h | h
        · subst h
          exact Or.inl ⟨List.mem_cons_self c rest,
            by cases hv : p c; rfl; exact absurd hv hp⟩
        · rcases ih rest hl c h with ⟨hmem, hpc⟩ | h
          · exact Or.inl ⟨List.mem_cons_of_mem a hmem, hpc⟩
          · exact Or.inr h

theorem squashAux_head {p : Char → Bool} (fuel : Nat) (l : List Char)
    (hl : l.length ≤ fuel) :
    (squashAux p fuel l).head? =
      l.head?.map fun c => if p c then ' ' else c := by
  cases fuel with
  | zero =>
    have : l = [] := List.length_eq_zero.mp (Nat.le_zero.mp hl)
    subst this
    rfl
  | succ fuel =>
    cases l with
    | nil => rfl
    | cons a rest =>
      by_cases hp : p a
      · simp [squashAux, hp]
      · simp [squashAux, hp]

theorem squashAux_chain {p : Char → Bool} :
    ∀ (fuel : Nat) (l : List Char), l.length ≤ fuel →
      List.Chain' (fun a b => ¬ (p a = true ∧ p b = true))
        (squashAux p fuel l) := by
  intro fuel
  induction fuel with
  | zero =>
    intro l hl
    have : l = [] := List.length_eq_zero.mp (Nat.le_zero.mp hl)
    subst this
    exact List.chain'_nil
  | succ fuel ih =>
    intro l hl
    cases l with
    | nil => exact List.chain'_nil
    | cons a rest =>
      rw [List.length_cons, Nat.succ_le_succ_iff] at hl
      by_cases hp : p a
      · rw [show squashAux p (fuel + 1) (a :: rest) =
            ' ' :: squashAux p fuel (rest.dropWhile p) by
          simp [squashAux, hp]]
        have hlen : (rest.dropWhile p).length ≤ fuel :=
          le_trans (dropWhile_length_le p rest) hl
        rw [List.chain'_cons']
        refine ⟨?_, ih _ hlen⟩
        intro y hy
        rw [squashAux_head fuel _ hlen] at hy
        cases hm : (rest.dropWhile p).head? with
        | none =>
          rw [hm] at hy
          exact absurd hy (by simp)
        | some d =>
          rw [hm] at hy
          have hd : p d = false := dropWhile_head_false hm
          have hyd : y = d := by
            rw [Option.map_some'] at hy
            have := Option.mem_some_iff.mp hy
            rw [← this, hd]
            simp
          subst hyd
          intro hcontra
          rw [hd] at hcontra
          exact Bool.noConfusion hcontra.2
      · rw [show squashAux p (fuel + 1) (a :: rest) =
            a :: squashAux p fuel rest by simp [squashAux, hp]]
        rw [List.chain'_cons']
        refine ⟨?_, ih _ hl⟩
        intro y hy
        intro hcontra
        have : p a = false := by
          cases hv : p a
          · rfl
          · exact absurd hv hp
        rw [this] at hcontra
        exact Bool.noConfusion hcontra.1

theorem squashAux_id {p : Char → Bool} :
    ∀ (fuel : Nat) (l : List Char),
      (∀ c ∈ l, p c = true → c = ' ') →
      List.Chain' (fun a b => ¬ (p a = true ∧ p b = true)) l →
      squashAux p fuel l = l := by
  intro fuel
  induction fuel with
  | zero => intro l _ _; rfl
  | succ fuel ih =>
    intro l hmem hch
    cases l with
    | nil => rfl
    | cons a rest =>
      by_cases hp : p a
      · have ha : a = ' ' := hmem a (List.mem_cons_self a rest) hp
        have hrest : rest.dropWhile p = rest := by
          cases rest with
          | nil => rfl
          | cons d rest' =>
            have hrel := (List.chain'_cons.mp hch).1
            have hd : p d = false := by
              cases hv : p d
              · rfl
              · exact absurd ⟨hp, hv⟩ hrel
            simp [List.dropWhile_cons, hd]
        rw [show squashAux p (fuel + 1) (a :: rest) =
            ' ' :: squashAux p fuel (rest.dropWhile p) by
          simp [squashAux, hp]]
        rw [hrest, ha,
          ih rest (fun c hc => hmem c (List.mem_cons_of_mem a hc)) hch.tail]
      · rw [show squashAux p (fuel + 1) (a :: rest) =
            a :: squashAux p fuel rest by simp [squashAux, hp]]
        rw [ih rest (fun c hc => hmem c (List.mem_cons_of_mem a hc)) hch.tail]

theorem squashRuns_mem {p : Char → Bool} {l : List Char} {c : Char}
    (h : c ∈ squashRuns p l) : (c ∈ l ∧ p c = false) ∨ c = ' ' :=
  squashAux_mem l.length l le_rfl c h

theorem squashRuns_chain (p : Char → Bool) (l : List Char) :
    List.Chain' (fun a b => ¬ (p a = true ∧ p b = true)) (squashRuns p l) :=
  squashAux_chain l.length l le_rfl

theorem squashRuns_id {p : Char → Bool} {l : List Char}
    (hmem : ∀ c ∈ l, p c = true → c = ' ')
    (hch : List.Chain' (fun a b => ¬ (p a = true ∧ p b = true)) l) :
    squashRuns p l = l :=
  squashAux_id l.length l hmem hch

theorem chain'_mono_mem {R S : Char → Char → Prop} :
    ∀ (l : List Char), List.Chain' R l →
      (∀ a ∈ l, ∀ b ∈ l, R a b → S a b) → List.Chain' S l := by
  intro l
  induction l with
  | nil => intro _ _; exact List.chain'_nil
  | cons a l ih =>
    intro hch hmono
    cases l with
    | nil => exact List.chain'_singleton a
    | cons b t =>
      rw [List.chain'_cons] at hch ⊢
      refine ⟨hmono a (by simp) b (by simp) hch.1, ?_⟩
      exact ih hch.2 fun x hx y hy h =>
        hmono x (List.mem_cons_of_mem a hx) y (List.mem_cons_of_mem a hy) h

theorem mem_of_head? {l : List Char} {c : Char} (h : l.head? = some c) :
    c ∈ l := by
  cases l with
  | nil => exact Option.noConfusion h
  | cons a as =>
    injection h with h
    exact h ▸ List.mem_cons_self a as

theorem mem_of_getLast? {l : List Char} {c : Char} (h : l.getLast? = some c) :
    c ∈ l := by
  rw [← List.head?_reverse] at h
  exact List.mem_reverse.mp (mem_of_head? h)

theorem nviews_canon (l : List Char) : ViewsCanon (nviewsList l) := by
  unfold nviewsList
  set B := (pyStrip l).map pyUpper with hB
  set C := squashRuns (fun c => !(isKeyChar c)) B with hC
  set D := squashRuns pyIsSpace C with hD
  have hmemD : ∀ c ∈ D, isKeyChar c = true ∨ c = ' ' := by
    intro c hc
    rcases squashRuns_mem (hD ▸ hc) with ⟨hcC, hsp⟩ | h
    · rcases squashRuns_mem (hC ▸ hcC) with ⟨_, hkey⟩ | h
      · left
        cases hv : isKeyChar c
        · rw [hv] at hkey
          exact absurd hkey (by simp)
        · rfl
      · subst h
        exact absurd hsp (by simp [pyIsSpace])
    · exact Or.inr h
  have hmemY : ∀ c ∈ pyStrip D, isKeyChar c = true ∨ c = ' ' :=
    fun c hc => hmemD c (mem_pyStrip hc)
  refine ⟨hmemY, ?_, ?_, ?_⟩
  · have hchD :
        List.Chain' (fun a b => ¬ (pyIsSpace a = true ∧ pyIsSpace b = true))
          D := squashRuns_chain pyIsSpace C
    have hchY := hchD.infix (pyStrip_within D)
    exact chain'_mono_mem (pyStrip D) hchY (by
      intro a ha b hb hR
      by_cases hka : isKeyChar a = true
      · exact Or.inl hka
      · right
        have ha' : a = ' ' := by
          rcases hmemY a ha with h | h
          · exact absurd h hka
          · exact h
        rcases hmemY b hb with h | h
        · exact h
        · subst ha'
          subst h
          exact absurd ⟨by decide, by decide⟩ hR)
  · intro c hc
    have hns : pyIsSpace c = false := pyStrip_head_not_space hc
    rcases hmemY c (mem_of_head? hc) with h | h
    · exact h
    · subst h
      exact absurd hns (by decide)
  · intro c hc
    have hns : pyIsSpace c = false := pyStrip_last_not_space hc
    rcases hmemY c (mem_of_getLast? hc) with h | h
    · exact h
    · subst h
      exact absurd hns (by decide)

theorem nviews_canon_id {l : List Char} (h : ViewsCanon l) :
    nviewsList l = l := by
  obtain ⟨hmem, hch, hhead, hlast⟩ := h
  have hstrip : pyStrip l = l :=
    pyStrip_id (fun c hc => key_not_space (hhead c hc))
      (fun c hc => key_not_space (hlast c hc))
  have hupper : l.map pyUpper = l :=
    map_id_of_fixed fun c hc => pyUpper_fixed (hmem c hc)
  have hsq1 : squashRuns (fun c => !(isKeyChar c)) l = l := by
    apply squashRuns_id
    · intro c hc hpc
      rcases hmem c hc with h | h
      · rw [h] at hpc
        exact absurd hpc (by simp)
      · exact h
    · exact chain'_mono_mem l hch (by
        intro a _ b _ hR hcontra
        simp only [Bool.not_eq_true'] at hcontra
        rcases hR with h | h
        · rw [hcontra.1] at h
          exact Bool.noConfusion h
        · rw [hcontra.2] at h
          exact Bool.noConfusion h)
  have hsq2 : squashRuns pyIsSpace l = l := by
    apply squashRuns_id
    · intro c hc hpc
      rcases hmem c hc with h | h
      · rw [key_not_space h] at hpc
        exact Bool.noConfusion hpc
      · exact h
    · exact chain'_mono_mem l hch (by
        intro a _ b _ hR hcontra
        rcases hR with h | h
        · rw [key_not_space h] at hcontra
          exact Bool.noConfusion hcontra.1
        · rw [key_not_space h] at hcontra
          exact Bool.noConfusion hcontra.2)
  unfold nviewsList
  rw [hstrip, hupper, hsq1, hsq2, hstrip]

theorem nviews_idem (l : List Char) :
    nviewsList (nviewsList l) = nviewsList l :=
  nviews_canon_id (nviews_canon l)

theorem parenMatch_none_of_head {c : Char} (rest : List Char)
    (h : c ≠ '(') : parenMatch (c :: rest) = none := by
  simp [parenMatch, h]

theorem removeParenAux_id :
    ∀ (fuel : Nat) (l : List Char), (∀ c ∈ l, c ≠ '(') →
      removeParenAux fuel l = l := by
  intro fuel
  induction fuel with
  | zero => intro l _; rfl
  | succ fuel ih =>
    intro l h
    cases l with
    | nil => rfl
    | cons c rest =>
      rw [show removeParenAux (fuel + 1) (c :: rest) =
          match parenMatch (c :: rest) with
          | some r => removeParenAux fuel r
          | none => c :: removeParenAux fuel rest from rfl]
      rw [parenMatch_none_of_head rest (h c (List.mem_cons_self c rest))]
      rw [ih rest fun d hd => h d (List.mem_cons_of_mem c hd)]

theorem stripTrailingSCST_id {l : List Char}
    (h : ∀ c ∈ l, pyIsSpace c = false) : stripTrailingSCST l = l := by
  induction l with
  | nil => rfl
  | cons c rest ih =>
    have hm : matchSpacesSCST (c :: rest) = false := by
      simp [matchSpacesSCST, h c (List.mem_cons_self c rest)]
    rw [show stripTrailingSCST (c :: rest) =
        if matchSpacesSCST (c :: rest) then []
        else c :: stripTrailingSCST rest from rfl]
    rw [hm]
    simp only [Bool.false_eq_true, if_false]
    rw [ih fun d hd => h d (List.mem_cons_of_mem c hd)]

theorem nscript_chars {l : List Char} {c : Char} (h : c ∈ nscriptList l) :
    isKeyChar c = true := by
  unfold nscriptList at h
  exact (List.mem_filter.mp h).2

theorem key_ne_paren {c : Char} (h : isKeyChar c = true) : c ≠ '(' := by
  intro hc
  subst hc
  exact absurd h (by decide)

theorem nscript_idem (l : List Char) :
    nscriptList (nscriptList l) = nscriptList l := by
  have hkey : ∀ c ∈ nscriptList l, isKeyChar c = true :=
    fun c hc => nscript_chars hc
  set y := nscriptList l with hy
  have hupper : y.map pyUpper = y :=
    map_id_of_fixed fun c hc => pyUpper_fixed (Or.inl (hkey c hc))
  have hparen : removeParenSCST y = y :=
    removeParenAux_id y.length y fun c hc => key_ne_paren (hkey c hc)
  have hnospace : ∀ c ∈ y, pyIsSpace c = false :=
    fun c hc => key_not_space (hkey c hc)
  have hstrip : pyStrip y = y :=
    pyStrip_id (fun c hc => hnospace c (mem_of_head? hc))
      (fun c hc => hnospace c (mem_of_getLast? hc))
  have htrail : stripTrailingSCST y = y := stripTrailingSCST_id hnospace
  have hfilter : y.filter isKeyChar = y := List.filter_eq_self.mpr hkey
  show nscriptList y = y
  unfold nscriptList
  rw [hupper, hparen, hstrip, htrail, hfilter]

/-- Claim C1 counterexample: on the empty pool the fuzzy matcher of the code
returns the input key itself, a NormalizedKey, while the contract written in
the specification returns none. -/
theorem match_empty_pool_returns_input :
    _match_constituency_key "AB" [] match_default_cutoff = "AB" ∧
      best_match_spec "AB" [] match_default_cutoff = none := by
  refine ⟨by decide, by decide⟩

/-- Claim C1, amended: when the key is not in the pool, both suffix toggles
miss and no candidate clears the cutoff (in particular when the pool is
empty), _match_constituency_key returns the input key unchanged; the result
is then not a member of the pool, which is how callers recognise the
unmatched case. -/
theorem match_unmatched_returns_key (key : String) (pool : List String)
    (cutoff : ℚ) (h : NoMatch key pool cutoff) :
    _match_constituency_key key pool cutoff = key ∧
      _match_constituency_key key pool cutoff ∉ pool := by
  refine ⟨match_of_nomatch h, ?_⟩
  rw [match_of_nomatch h]
  exact h.1

/-- Witness for the amended claim C1 at the empty pool. -/
theorem match_unmatched_returns_key_witness :
    _match_constituency_key "AB" [] match_default_cutoff = "AB" ∧
      _match_constituency_key "AB" [] match_default_cutoff ∉
        ([] : List String) :=
  match_unmatched_returns_key "AB" [] match_default_cutoff (by decide)

/-- Claim C2: when the key is a member of the pool,
_match_constituency_key returns the key itself, whatever the cutoff; the
membership test is the first branch of the function, before the
suffix-toggle and edit-distance logic. -/
theorem match_exact_membership_first (key : String) (pool : List String)
    (cutoff : ℚ) (h : key ∈ pool) :
    _match_constituency_key key pool cutoff = key :=
  match_eq_of_mem h

/-- Witness for claim C2, with a cutoff (zero) under which fuzzy matching
would accept everything: the exact branch still wins. -/
theorem match_exact_membership_first_witness :
    _match_constituency_key "A" ["A", "B"] 0 = "A" :=
  match_exact_membership_first "A" ["A", "B"] 0 (by decide)

/-- Claim C3 counterexample: an alias entry whose target is the empty
string is skipped by the Python truthiness test on the mapped value, and
the resolver falls through to the fuzzy matcher, which returns a fuzzy
candidate instead of the alias target. -/
theorem resolve_empty_alias_target_falls_through :
    aliasAt [("", [("K", "")])] "" "K" = some "" ∧
      _resolve_constituency_key "K" "" ["KX"] [] [("", [("K", "")])]
        (Rat.divInt 1 2) = "KX" ∧ "KX" ≠ "" := by
  refine ⟨by decide, by decide, by decide⟩

/-- Claim C3, amended: whenever the two-step alias lookup of the resolver
(district scope while the district key is truthy, then global scope,
skipping empty-string targets) produces a target, the resolver returns that
target for every candidate pool, district index and cutoff — the fuzzy
matcher is never consulted. -/
theorem resolve_alias_precedence (abd : AliasTable) (raw dk t : String)
    (h : aliasLookup abd raw dk = some t) :
    ∀ (seen : List String) (dc : List (String × List String)) (cutoff : ℚ),
      _resolve_constituency_key raw dk seen dc abd cutoff = t :=
  fun seen dc cutoff => resolve_alias_some h seen dc cutoff

/-- Witness for the amended claim C3: scenario 3 of the specification, an
alias winning over a pool that also contains a fuzzy candidate. -/
theorem resolve_alias_precedence_witness :
    _resolve_constituency_key "PALACODU" "" ["PALACODE", "THALLY"] []
      [("", [("PALACODU", "PALACODE")])] match_default_cutoff = "PALACODE" :=
  resolve_alias_precedence [("", [("PALACODU", "PALACODE")])] "PALACODU" ""
    "PALACODE" (by decide) ["PALACODE", "THALLY"] [] match_default_cutoff

/-- Claim C4 counterexample: the hand-curated alias PALACODU to PALACODE is
applied with setdefault, so an auto-derived entry for the same key and
scope survives in both the global and the district scope; the hand-curated
override does not overwrite it. -/
theorem alias_table_setdefault_keeps_auto :
    aliasAt (buildAliasMapData [⟨"Palacodu Town", "Dharmapuri", "Palacodu"⟩])
        "" "PALACODU" = some "PALACODU TOWN" ∧
      aliasAt (buildAliasMapData [⟨"Palacodu Town", "Dharmapuri", "Palacodu"⟩])
        "DHARMAPURI" "PALACODU" = some "PALACODU TOWN" ∧
      ("PALACODU", "PALACODE") ∈ explicit_aliases ∧
      "PALACODU TOWN" ≠ "PALACODE" := by
  refine ⟨by decide, by decide, by decide, by decide⟩

/-- Claim C4, amended: the hand-curated aliases are applied after
auto-derivation but with setdefault semantics, so an auto-derived entry for
the same (key, scope) always survives them; the one exception is the global
entry for TIRUPPATTUR, which the code assigns last with plain assignment
and which therefore always maps to TIRUPATTUR. -/
theorem alias_table_auto_wins_except_forced (rows : List CsvRow)
    (scope k v : String)
    (hauto : aliasAt (buildIndexes rows).alias_by_district scope k = some v)
    (hnf : ¬ (scope = "" ∧ k = "TIRUPPATTUR")) :
    aliasAt (buildAliasMapData rows) scope k = some v ∧
      aliasAt (buildAliasMapData rows) "" "TIRUPPATTUR" =
        some "TIRUPATTUR" := by
  have hbd : buildAliasMapData rows =
      abdAssign
        ((setdefaultOps
            ((buildIndexes rows).district_candidates.map fun p => p.1)).foldl
          (fun a o => abdSetdefault a o.1 o.2.1 o.2.2)
          (buildIndexes rows).alias_by_district)
        "" "TIRUPPATTUR" "TIRUPATTUR" := rfl
  rw [hbd]
  constructor
  · rw [aliasAt_abdAssign_preserve fun hc => hnf ⟨hc.1.symm, hc.2.symm⟩]
    exact aliasAt_fold_setdefault_preserve _ _ hauto
  · exact aliasAt_abdAssign_self _ "" "TIRUPPATTUR" "TIRUPATTUR"

/-- Witness for the amended claim C4: an auto-derived entry mapping the
official spelling PONNERI SC to the working key PONNERI survives the
hand-curated pass. -/
theorem alias_table_auto_wins_except_forced_witness :
    aliasAt (buildAliasMapData [⟨"Ponneri", "Tiruvallur", "Ponneri (SC)"⟩])
      "" "PONNERI SC" = some "PONNERI" :=
  (alias_table_auto_wins_except_forced
    [⟨"Ponneri", "Tiruvallur", "Ponneri (SC)"⟩] "" "PONNERI SC" "PONNERI"
    (by decide) (by decide)).1

/-- Claim C5 counterexample: with the district key present in the district
index, an unmatched fuzzy pass over the district pool returns the raw key
itself, which here is a member of the global pool but not of the district
pool — so a key that is only a member of the global pool is returned. -/
theorem resolve_district_result_outside_pool :
    _resolve_constituency_key "AB" "D" ["AB"] [("D", ["QQQQ"])] []
        map_data_cutoff = "AB" ∧
      ("AB" : String) ∈ ["AB"] ∧ ("AB" : String) ∉ ["QQQQ"] ∧
      dictFind? [("D", ["QQQQ"])] "D" = some ["QQQQ"] := by
  refine ⟨by decide, by decide, by decide, by decide⟩

/-- Claim C5, amended: when the district key is truthy and indexed and no
alias fires, the resolver consults only the district pool — its result is a
member of that district pool or the raw key returned unchanged; alias hits
and the returned-input fallback may still produce keys outside the district
pool. -/
theorem resolve_district_scope_pool (raw dk : String) (seen : List String)
    (dc : List (String × List String)) (abd : AliasTable) (cutoff : ℚ)
    (pool : List String) (halias : aliasLookup abd raw dk = none)
    (hdk : dk ≠ "") (hdc : dictFind? dc dk = some pool) :
    _resolve_constituency_key raw dk seen dc abd cutoff =
      _match_constituency_key raw pool cutoff ∧
      (_resolve_constituency_key raw dk seen dc abd cutoff ∈ pool ∨
        _resolve_constituency_key raw dk seen dc abd cutoff = raw) := by
  have h := resolve_alias_none_district halias hdk hdc seen cutoff
  refine ⟨h, ?_⟩
  rw [h]
  exact match_mem_or_self raw pool cutoff

/-- Witness for the amended claim C5: the suffix toggle resolves
VANDAVASI inside the district pool of TIRUVANNAMALAI. -/
theorem resolve_district_scope_pool_witness :
    _resolve_constituency_key "VANDAVASI" "TIRUVANNAMALAI" ["X"]
        [("TIRUVANNAMALAI", ["VANDAVASI SC"])] [] map_data_cutoff =
      _match_constituency_key "VANDAVASI" ["VANDAVASI SC"] map_data_cutoff :=
  (resolve_district_scope_pool "VANDAVASI" "TIRUVANNAMALAI" ["X"]
    [("TIRUVANNAMALAI", ["VANDAVASI SC"])] [] map_data_cutoff
    ["VANDAVASI SC"] (by decide) (by decide) (by decide)).1

/-- Claim C6 counterexample: the candidates A and B tie on the similarity
ratio against the key AB, and the matcher returns B, the lexicographically
larger of the two, in either pool order — not the smaller as the
specification prescribes. -/
theorem match_tie_prefers_larger :
    _match_constituency_key "AB" ["A", "B"] (Rat.divInt 1 2) = "B" ∧
      _match_constituency_key "AB" ["B", "A"] (Rat.divInt 1 2) = "B" ∧
      ratioQ "A" "AB" = ratioQ "B" "AB" ∧
      Rat.divInt 1 2 ≤ ratioQ "A" "AB" ∧
      pyStrLt "A" "B" = true := by
  refine ⟨by decide, by decide, by decide, by decide, by decide⟩

/-- Claim C6, amended: on the fuzzy path the matcher returns a pool member
of maximal ratio, and on exact ratio ties the lexicographically larger
NormalizedKey; the result is nevertheless deterministic — it is invariant
under every permutation of the candidate pool. -/
theorem match_fuzzy_argmax_deterministic (key : String)
    (pool : List String) (cutoff : ℚ) (h1 : key ∉ pool)
    (h2 : suffixHit key " SC" pool = none)
    (h3 : suffixHit key " ST" pool = none)
    (hex : ∃ c ∈ pool, cutoff ≤ ratioQ c key) :
    (_match_constituency_key key pool cutoff ∈ pool ∧
      cutoff ≤ ratioQ (_match_constituency_key key pool cutoff) key ∧
      ∀ c ∈ pool, cutoff ≤ ratioQ c key →
        ratioQ c key < ratioQ (_match_constituency_key key pool cutoff) key ∨
          (ratioQ c key =
              ratioQ (_match_constituency_key key pool cutoff) key ∧
            (c = _match_constituency_key key pool cutoff ∨
              pyStrLt c (_match_constituency_key key pool cutoff) = true))) ∧
    ∀ pool', pool.Perm pool' →
      _match_constituency_key key pool' cutoff =
        _match_constituency_key key pool cutoff := by
  obtain ⟨c, hc, hcut⟩ := hex
  obtain ⟨hm, hmcut, hbest⟩ := match_fuzzy_spec h1 h2 h3 hc hcut
  constructor
  · refine ⟨hm, hmcut, ?_⟩
    intro d hd hdcut
    have hnd := hbest d hd hdcut
    set r := _match_constituency_key key pool cutoff with hr
    rcases lt_trichotomy (ratioQ d key) (ratioQ r key) with h | h | h
    · exact Or.inl h
    · refine Or.inr ⟨h, ?_⟩
      by_cases hdr : d = r
      · exact Or.inl hdr
      · right
        have hne : d.data ≠ r.data := fun hdata => hdr (String.ext hdata)
        rcases chLt_connex hne with hlt | hlt
        · exact hlt
        · exact absurd (Or.inr ⟨h.symm, hlt⟩) hnd
    · exact absurd (Or.inl h) hnd
  · intro pool' hp
    exact (match_perm hp).symm

/-- Witness for the amended claim C6 on a concrete tie. -/
theorem match_fuzzy_argmax_deterministic_witness :
    _match_constituency_key "AB" ["A", "B"] (Rat.divInt 1 2) ∈ ["A", "B"] :=
  ((match_fuzzy_argmax_deterministic "AB" ["A", "B"] (Rat.divInt 1 2)
    (by decide) (by decide) (by decide) ⟨"A", by decide, by decide⟩).1).1

/-- Claim C7 counterexample: a full-pool resolution under the cutoff the
views actually pass (0.85) accepts a candidate whose ratio is below the
strict 0.9 cutoff; under 0.9 the same resolution would return the raw key
unmatched — so the strict cutoff is not what the full-pool path uses. -/
theorem resolve_full_pool_loose_cutoff :
    _resolve_constituency_key "ABCDEFG" "" ["ABCDEFX"] [] [] map_data_cutoff
        = "ABCDEFX" ∧
      ratioQ "ABCDEFX" "ABCDEFG" < match_default_cutoff ∧
      map_data_cutoff ≤ ratioQ "ABCDEFX" "ABCDEFG" ∧
      _resolve_constituency_key "ABCDEFG" "" ["ABCDEFX"] [] []
        match_default_cutoff = "ABCDEFG" := by
  refine ⟨by decide, by decide, by decide, by decide⟩

/-- Claim C7, amended: _resolve_constituency_key applies the one
caller-supplied cutoff unchanged to whichever pool it falls through to;
map_data and constituency_detail pass 0.85, so both the district-narrowed
and the full statewide fuzzy matches run at 0.85, and the stricter 0.9
default of _match_constituency_key is never used on these paths. -/
theorem resolve_single_cutoff_both_pools (raw dk : String)
    (seen : List String) (dc : List (String × List String))
    (abd : AliasTable) (halias : aliasLookup abd raw dk = none) :
    (∀ pool, dk ≠ "" → dictFind? dc dk = some pool →
      _resolve_constituency_key raw dk seen dc abd map_data_cutoff =
        _match_constituency_key raw pool map_data_cutoff) ∧
    ((dk = "" ∨ dictFind? dc dk = none) →
      _resolve_constituency_key raw dk seen dc abd map_data_cutoff =
        _match_constituency_key raw seen map_data_cutoff) := by
  constructor
  · intro pool hdk hdc
    exact resolve_alias_none_district halias hdk hdc seen map_data_cutoff
  · intro hfull
    exact resolve_alias_none_full halias hfull seen map_data_cutoff

/-- Witness for the amended claim C7: a resolution with no district falls
through to the full pool and uses the caller cutoff 0.85. -/
theorem resolve_single_cutoff_both_pools_witness :
    _resolve_constituency_key "ABCDEFG" "" ["ABCDEFX"] [] [] map_data_cutoff
      = _match_constituency_key "ABCDEFG" ["ABCDEFX"] map_data_cutoff :=
  (resolve_single_cutoff_both_pools "ABCDEFG" "" ["ABCDEFX"] [] []
    (by decide)).2 (Or.inl rfl)

/-- Claim C8 counterexample: the views normalizer, one of the two cited
normalizers, strips no SC marker: it normalizes the string
Ponneri (SC) to PONNERI SC, not to PONNERI as the claim requires. -/
theorem views_normalizer_keeps_sc :
    _normalize_constituency_name "Ponneri (SC)" = "PONNERI SC" ∧
      _normalize_constituency_name "PONNERI" = "PONNERI" ∧
      "PONNERI SC" ≠ "PONNERI" := by
  refine ⟨by decide, by decide, by decide⟩

/-- Claim C8, amended: only the space-stripping normalizer strips the
reservation markers, and it does so with these caveats: the parenthesized
form is removed anywhere in the string but only when the closing
parenthesis is present (a missing one is not tolerated), and the bare
trailing word form must be preceded by whitespace.  On the claim instance
it behaves as specified: Ponneri (SC) and PONNERI both normalize to
PONNERI.  The views normalizer keeps the marker, yielding PONNERI SC. -/
theorem normalizer_scst_behavior :
    _normalize "Ponneri (SC)" = "PONNERI" ∧
      _normalize "PONNERI" = "PONNERI" ∧
      _normalize "Ponneri SC" = "PONNERI" ∧
      _normalize "Ponneri (SC" = "PONNERISC" ∧
      _normalize "X (SC) Y" = "XY" ∧
      _normalize_constituency_name "Ponneri (SC)" = "PONNERI SC" := by
  refine ⟨by decide, by decide, by decide, by decide, by decide, by decide⟩

/-- Claim C9: both normalization variants are idempotent — applying the
views normalizer or the script normalizer twice gives the same result as
applying it once, for every input string. -/
theorem normalize_idempotent (x : String) :
    _normalize_constituency_name (_normalize_constituency_name x) =
      _normalize_constituency_name x ∧
    _normalize (_normalize x) = _normalize x := by
  constructor
  · show String.mk (nviewsList (nviewsList x.data)) =
      String.mk (nviewsList x.data)
    rw [nviews_idem]
  · show String.mk (nscriptList (nscriptList x.data)) =
      String.mk (nscriptList x.data)
    rw [nscript_idem]

/-- Claim C10: the resolver and matcher are total functions returning a
plain string (no exception, no None value exists in their types); when the
alias lookup misses and no exact, suffix-toggle or above-cutoff fuzzy match
exists in whichever pool is consulted — including for the empty raw key —
the raw key itself is returned unchanged, so callers can detect the
unmatched case only by testing the returned key against the pool, as
map_data does at views.py lines 352-354. -/
theorem resolver_total_identity_fallback (raw dk : String)
    (seen : List String) (dc : List (String × List String))
    (abd : AliasTable) (cutoff : ℚ)
    (halias : aliasLookup abd raw dk = none)
    (hd : ∀ pool, dk ≠ "" → dictFind? dc dk = some pool →
      NoMatch raw pool cutoff)
    (hs : NoMatch raw seen cutoff) :
    _resolve_constituency_key raw dk seen dc abd cutoff = raw := by
  by_cases hdk : dk = ""
  · rw [resolve_alias_none_full halias (Or.inl hdk) seen cutoff]
    exact match_of_nomatch hs
  · cases hdc : dictFind? dc dk with
    | none =>
      rw [resolve_alias_none_full halias (Or.inr hdc) seen cutoff]
      exact match_of_nomatch hs
    | some pool =>
      rw [resolve_alias_none_district halias hdk hdc seen cutoff]
      exact match_of_nomatch (hd pool hdk hdc)

/-- Witness for claim C10 on the empty raw key: the resolver returns the
empty string unchanged and does not fail. -/
theorem resolver_total_identity_fallback_witness :
    _resolve_constituency_key "" "" ["PONNERI"] [] [] map_data_cutoff = "" :=
  resolver_total_identity_fallback "" "" ["PONNERI"] [] [] map_data_cutoff
    (by decide) (fun _ h _ => absurd rfl h) (by decide)
